import Mathlib

/-!
# Lunch Store: verification of the persistence/selection layer

Shallow embedding of `src/src-tauri/src/db.rs` (the `Database` type and its
operations `list_all`, `list_by_category`, `add`, `delete`, `roll`).

Modelling decisions, each tied to a concrete feature of the source:

* The SQLite state is two tables.  `lunch_list(restaurants TEXT PRIMARY KEY,
  option TEXT)` is a list of `Restaurant` rows in rowid (insertion) order;
  `recent_lunch(restaurants TEXT PRIMARY KEY, date TEXT)` is a list of
  `(name, date)` rows.  The RFC3339 timestamp strings written by
  `Utc::now().to_rfc3339()` compare lexicographically in chronological order,
  so dates are modelled as `Nat` with the same ordering.
* SQLite's `LOWER` lowercases ASCII only, exactly like Lean's `Char.toLower`;
  `lowerString` applies it characterwise.
* The default `BINARY` collation used by `ORDER BY restaurants` compares
  UTF-8 bytes, which coincides with codepoint-wise lexicographic order;
  `charsLe` computes it, and `charsLe_iff_le` identifies it with Lean's
  `String` order.
* `ORDER BY` is a stable sort; it is modelled with `List.insertionSort`.
* `slice.choose(&mut rand::rng())` picks a uniformly random element of a
  non-empty slice; it is modelled by an explicit index `pick : Nat` reduced
  mod the pool length, so quantifying over `pick` covers every outcome of
  the random source.
* Each failing SQL statement leaves the database unchanged, so operations
  return `DBState × Except DbError α` with the input state on the error path.
-/

/-- A row of `lunch_list`: `restaurants` (name) and `option` (category). -/
structure Restaurant where
  name : String
  category : String
deriving DecidableEq, Repr

/-- The two tables owned by `Database`. -/
structure DBState where
  lunch_list : List Restaurant
  recent_lunch : List (String × Nat)
deriving DecidableEq, Repr

/-- Errors surfaced by the store, named after the `rusqlite` errors the code
produces.  `queryReturnedNoRows` is the spec's `NoCandidatesError`;
`uniqueConstraintViolation` is the spec's `DuplicateNameError`. -/
inductive DbError where
  | queryReturnedNoRows
  | uniqueConstraintViolation
deriving DecidableEq, Repr

/-- SQLite's `LOWER`: ASCII-only lowercasing, characterwise. -/
def lowerString (s : String) : String :=
  ⟨s.data.map Char.toLower⟩

/-- SQLite's `BINARY` collation on TEXT (byte order on UTF-8, which is
codepoint-wise lexicographic order), as an executable comparison. -/
def charsLe : List Char → List Char → Bool
  | [], _ => true
  | _ :: _, [] => false
  | a :: as, b :: bs =>
    if a < b then true else if b < a then false else charsLe as bs

/-- The `ORDER BY restaurants` comparison between rows. -/
def nameLe (a b : Restaurant) : Prop :=
  charsLe a.name.data b.name.data = true

instance : DecidableRel nameLe := fun _ _ =>
  inferInstanceAs (Decidable (_ = true))

/-- The `ORDER BY date DESC` comparison between history rows. -/
def dateGe (a b : String × Nat) : Prop :=
  b.2 ≤ a.2

instance : DecidableRel dateGe := fun _ _ =>
  inferInstanceAs (Decidable (_ ≤ _))

instance : IsTotal (String × Nat) dateGe :=
  ⟨fun a b => (Nat.le_total a.2 b.2).symm⟩

instance : IsTrans (String × Nat) dateGe :=
  ⟨fun _ _ _ h1 h2 => Nat.le_trans h2 h1⟩

namespace Database

/-- `SELECT restaurants, option FROM lunch_list ORDER BY restaurants`. -/
def list_all (s : DBState) : List Restaurant :=
  s.lunch_list.insertionSort nameLe

/-- `SELECT restaurants, option FROM lunch_list WHERE LOWER(option) = LOWER(?)`.
No `ORDER BY`: rows come back in rowid order, i.e. the stored order. -/
def list_by_category (s : DBState) (category : String) : List Restaurant :=
  s.lunch_list.filter (fun r => lowerString r.category == lowerString category)

/-- `INSERT INTO lunch_list (restaurants, option) VALUES (?, ?)`: fails with a
UNIQUE-constraint error when the primary key `restaurants` already has an
exactly equal (BINARY collation, hence case-sensitive) entry. -/
def add (s : DBState) (name category : String) : DBState × Except DbError Unit :=
  if s.lunch_list.any (fun r => r.name == name) then
    (s, .error .uniqueConstraintViolation)
  else
    ({ s with lunch_list := s.lunch_list ++ [⟨name, category⟩] }, .ok ())

/-- `DELETE FROM lunch_list WHERE restaurants = ?`; deleting an absent name
deletes nothing and still succeeds. -/
def delete (s : DBState) (name : String) : DBState × Except DbError Unit :=
  ({ s with lunch_list := s.lunch_list.filter (fun r => r.name != name) }, .ok ())

/-- `SELECT restaurants FROM recent_lunch ORDER BY date DESC ...`. -/
def byDateDesc (recent : List (String × Nat)) : List (String × Nat) :=
  recent.insertionSort dateGe

/-- `SELECT restaurants FROM recent_lunch ORDER BY date DESC LIMIT 1`, with
`.ok()` turning the no-rows error into `None`. -/
def lastPick (recent : List (String × Nat)) : Option String :=
  (byDateDesc recent).head?.map Prod.fst

/-- `INSERT OR REPLACE INTO recent_lunch (restaurants, date) VALUES (?, ?)`:
any existing row with this primary key is dropped and the fresh row inserted. -/
def upsertRecent (recent : List (String × Nat)) (name : String) (now : Nat) :
    List (String × Nat) :=
  recent.filter (fun p => p.1 != name) ++ [(name, now)]

/-- The subquery `SELECT restaurants FROM recent_lunch ORDER BY date DESC
LIMIT 14`. -/
def top14Names (recent : List (String × Nat)) : List String :=
  ((byDateDesc recent).take 14).map Prod.fst

/-- `DELETE FROM recent_lunch WHERE restaurants NOT IN (...)`: keep exactly the
rows whose name the subquery returned. -/
def pruneRecent (recent : List (String × Nat)) : List (String × Nat) :=
  recent.filter (fun p => (top14Names recent).contains p.1)

/-- The candidate pool of `Database::roll`: the category's restaurants minus
the most recent pick, falling back to the unfiltered list when the filter
removes everything. -/
def rollPool (s : DBState) (category : String) : List Restaurant :=
  let restaurants := list_by_category s category
  let available := restaurants.filter (fun r => some r.name != lastPick s.recent_lunch)
  if available.isEmpty then restaurants else available

/-- `Database::roll`:
1. fetch the category's restaurants; error `QueryReturnedNoRows` if empty;
2. read the most recent pick and filter it out of the candidates, falling
   back to the unfiltered list when that empties the pool (`rollPool`);
3. choose a random element of the pool (`pick` indexes the random outcome);
4. upsert the chosen name with the current timestamp;
5. prune `recent_lunch` to the 14 most recent rows. -/
def roll (s : DBState) (category : String) (pick now : Nat) :
    DBState × Except DbError Restaurant :=
  let restaurants := list_by_category s category
  if restaurants.isEmpty then
    (s, .error .queryReturnedNoRows)
  else
    let pool := rollPool s category
    let chosen := pool.getD (pick % pool.length) ⟨"", ""⟩
    ({ s with recent_lunch := pruneRecent (upsertRecent s.recent_lunch chosen.name now) },
      .ok chosen)

end Database

section Sanity

example :
    Database.list_by_category ⟨[⟨"Place", "Cheap"⟩, ⟨"Other", "normal"⟩], []⟩ "CHEAP"
      = [⟨"Place", "Cheap"⟩] := by decide

example :
    Database.list_all ⟨[⟨"Zebra", "cheap"⟩, ⟨"Apple", "normal"⟩, ⟨"Mango", "cheap"⟩], []⟩
      = [⟨"Apple", "normal"⟩, ⟨"Mango", "cheap"⟩, ⟨"Zebra", "cheap"⟩] := by decide

example :
    Database.roll ⟨[⟨"A", "cheap"⟩, ⟨"B", "cheap"⟩], []⟩ "cheap" 0 5
      = (⟨[⟨"A", "cheap"⟩, ⟨"B", "cheap"⟩], [("A", 5)]⟩, .ok ⟨"A", "cheap"⟩) := rfl

example :
    Database.roll ⟨[⟨"A", "cheap"⟩, ⟨"B", "cheap"⟩], [("A", 5)]⟩ "cheap" 0 6
      = (⟨[⟨"A", "cheap"⟩, ⟨"B", "cheap"⟩], [("A", 5), ("B", 6)]⟩, .ok ⟨"B", "cheap"⟩) := rfl

example :
    Database.roll ⟨[⟨"A", "cheap"⟩], [("A", 5)]⟩ "cheap" 3 6
      = (⟨[⟨"A", "cheap"⟩], [("A", 6)]⟩, .ok ⟨"A", "cheap"⟩) := rfl

end Sanity

section Bridge

/-- `charsLe` computes the lexicographic (byte / codepoint) order on
character lists: it agrees with the lexicographic order `List.Lex`, hence
with `String ≤`. -/
theorem charsLe_iff_not_lex :
    ∀ as bs : List Char, charsLe as bs = true ↔ ¬ List.Lex (· < ·) bs as
  | [], _ => iff_of_true rfl (fun h => nomatch h)
  | _ :: _, [] => iff_of_false (by simp [charsLe]) (fun h => h List.Lex.nil)
  | a :: as, b :: bs => by
    by_cases h1 : a < b
    · refine iff_of_true (by simp [charsLe, h1]) ?_
      intro h
      cases h with
      | cons _ => exact lt_irrefl a h1
      | rel hba => exact absurd hba (lt_asymm h1)
    · by_cases h2 : b < a
      · refine iff_of_false (by simp [charsLe, h1, h2]) ?_
        intro h
        exact h (List.Lex.rel h2)
      · have hab : a = b := le_antisymm (not_lt.mp h2) (not_lt.mp h1)
        subst hab
        have ih := charsLe_iff_not_lex as bs
        simp only [charsLe, if_neg h1]
        rw [ih]
        constructor
        · intro hn h
          cases h with
          | cons h3 => exact hn h3
          | rel hba => exact absurd hba h2
        · intro hn h3
          exact hn (List.Lex.cons h3)

/-- The row comparison used by `list_all` is exactly Lean's `String` order on
the names. -/
theorem nameLe_iff (a b : Restaurant) : nameLe a b ↔ a.name ≤ b.name := by
  rw [String.le_iff_toList_le, ← not_lt]
  exact charsLe_iff_not_lex a.name.data b.name.data

instance : IsTotal Restaurant nameLe :=
  ⟨fun a b => by
    rw [nameLe_iff, nameLe_iff]
    exact le_total a.name b.name⟩

instance : IsTrans Restaurant nameLe :=
  ⟨fun a b c h1 h2 => by
    rw [nameLe_iff] at h1 h2 ⊢
    exact le_trans h1 h2⟩

end Bridge

section Helpers

namespace Database

/-- A `choose` over a non-empty pool returns an element of the pool. -/
theorem getD_mod_mem {l : List Restaurant} (h : l ≠ []) (i : Nat) (d : Restaurant) :
    l.getD (i % l.length) d ∈ l := by
  have hpos : 0 < l.length := List.length_pos.mpr h
  have hlt : i % l.length < l.length := Nat.mod_lt _ hpos
  rw [List.getD_eq_getElem?_getD, List.getElem?_eq_getElem hlt]
  exact List.getElem_mem hlt

/-- On an empty category, `roll` short-circuits to the no-rows error. -/
theorem roll_nil_eq (s : DBState) (category : String) (pick now : Nat)
    (h : list_by_category s category = []) :
    roll s category pick now = (s, .error .queryReturnedNoRows) := by
  unfold roll
  simp [h]

/-- On a non-empty category, `roll` succeeds, choosing from `rollPool` and
rewriting only `recent_lunch`. -/
theorem roll_cons_eq (s : DBState) (category : String) (pick now : Nat)
    (h : list_by_category s category ≠ []) :
    roll s category pick now =
      ({ s with recent_lunch := pruneRecent (upsertRecent s.recent_lunch
          ((rollPool s category).getD (pick % (rollPool s category).length) ⟨"", ""⟩).name now) },
        .ok ((rollPool s category).getD (pick % (rollPool s category).length) ⟨"", ""⟩)) := by
  unfold roll
  simp [h]

/-- The candidate pool is never empty when the category is inhabited. -/
theorem rollPool_ne_nil {s : DBState} {category : String}
    (h : list_by_category s category ≠ []) : rollPool s category ≠ [] := by
  unfold rollPool
  dsimp only
  split
  · exact h
  · next hne => exact List.isEmpty_eq_false.mp (Bool.not_eq_true _ ▸ hne)

/-- The candidate pool only contains restaurants of the category. -/
theorem rollPool_subset (s : DBState) (category : String) :
    rollPool s category ⊆ list_by_category s category := by
  unfold rollPool
  dsimp only
  split
  · exact fun _ h => h
  · exact (List.filter_sublist _).subset

/-- When some candidate differs from the last pick, the pool is the filtered
list, so the chosen restaurant differs from the last pick. -/
theorem rollPool_avoids_last {s : DBState} {category : String}
    (havail : (list_by_category s category).filter
      (fun r => some r.name != lastPick s.recent_lunch) ≠ []) :
    ∀ r ∈ rollPool s category, some r.name ≠ lastPick s.recent_lunch := by
  intro r hr
  unfold rollPool at hr
  rw [if_neg (by simpa using havail)] at hr
  have := (List.mem_filter.mp hr).2
  simpa using this

/-- Membership in the upserted history. -/
theorem mem_upsertRecent {recent : List (String × Nat)} {name : String} {now : Nat}
    {p : String × Nat} :
    p ∈ upsertRecent recent name now ↔ (p ∈ recent ∧ p.1 ≠ name) ∨ p = (name, now) := by
  simp [upsertRecent, List.mem_filter, List.mem_append]

end Database

end Helpers
theorem roll_preserves_lunch_list (s : DBState) (category : String) (pick now : Nat) :
    (Database.roll s category pick now).1.lunch_list = s.lunch_list := by
  unfold Database.roll
  by_cases h : (Database.list_by_category s category).isEmpty <;> simp [h]

/-- C4: when the case-insensitive category match yields no restaurants, `roll`
fails with the no-candidates error and the state is unchanged. -/
theorem roll_empty_category_fails (s : DBState) (category : String) (pick now : Nat)
    (h : Database.list_by_category s category = []) :
    Database.roll s category pick now = (s, .error .queryReturnedNoRows) := by
  unfold Database.roll
  simp [h]

/-- Witness for `roll_empty_category_fails` at a concrete state and category. -/
theorem roll_empty_category_fails_witness :
    Database.roll ⟨[⟨"Arbys", "cheap"⟩], []⟩ "normal" 0 0
      = (⟨[⟨"Arbys", "cheap"⟩], []⟩, .error .queryReturnedNoRows) :=
  roll_empty_category_fails ⟨[⟨"Arbys", "cheap"⟩], []⟩ "normal" 0 0 (by decide)

/-- C5: `add` with a name already in `lunch_list` (case-sensitive exact match
on the primary key) fails with the duplicate-name error and leaves every row of
`lunch_list` unchanged. -/
theorem add_duplicate_fails (s : DBState) (name category : String)
    (h : ∃ r ∈ s.lunch_list, r.name = name) :
    Database.add s name category = (s, .error .uniqueConstraintViolation) := by
  obtain ⟨r, hr, hn⟩ := h
  have hany : s.lunch_list.any (fun r => r.name == name) = true :=
    List.any_eq_true.mpr ⟨r, hr, by simp [hn]⟩
  simp [Database.add, hany]

/-- Witness for `add_duplicate_fails`: re-adding "Duplicate" fails and the
table is untouched. -/
theorem add_duplicate_fails_witness :
    Database.add ⟨[⟨"Duplicate", "cheap"⟩], []⟩ "Duplicate" "normal"
      = (⟨[⟨"Duplicate", "cheap"⟩], []⟩, .error .uniqueConstraintViolation) :=
  add_duplicate_fails ⟨[⟨"Duplicate", "cheap"⟩], []⟩ "Duplicate" "normal"
    ⟨⟨"Duplicate", "cheap"⟩, by simp, rfl⟩

/-- C6 counterexample: `add` with an empty name succeeds (inserting the row)
instead of failing — the store performs no emptiness validation. -/
theorem add_empty_name_succeeds :
    Database.add ⟨[], []⟩ "" "cheap"
      = (⟨[⟨"", "cheap"⟩], []⟩, .ok ()) := rfl

/-- C6 (amended): `add` performs no emptiness check: whenever the name is not
already present — in particular when the name or the category is the empty
string — it succeeds and appends the row. -/
theorem add_no_emptiness_validation (s : DBState) (name category : String)
    (h : ∀ r ∈ s.lunch_list, r.name ≠ name) :
    Database.add s name category
      = ({ s with lunch_list := s.lunch_list ++ [⟨name, category⟩] }, .ok ()) := by
  have hany : s.lunch_list.any (fun r => r.name == name) = false := by
    rw [List.any_eq_false]
    intro r hr
    simp [h r hr]
  simp [Database.add, hany]

/-- Witness for `add_no_emptiness_validation` with both fields empty. -/
theorem add_no_emptiness_validation_witness :
    Database.add ⟨[], []⟩ "" ""
      = (⟨[⟨"", ""⟩], []⟩, .ok ()) :=
  add_no_emptiness_validation ⟨[], []⟩ "" "" (by simp)

/-- C7: `list_by_category` returns a sub-run of the stored rows (so the stored
category text keeps its original casing), a row is returned exactly when its
category lower-cased equals the query lower-cased, and the "Cheap" row is found
by the queries "cheap", "CHEAP" and "Cheap" alike. -/
theorem list_by_category_case_insensitive :
    (∀ (s : DBState) (category : String),
      List.Sublist (Database.list_by_category s category) s.lunch_list ∧
      ∀ r : Restaurant, r ∈ Database.list_by_category s category ↔
        r ∈ s.lunch_list ∧ lowerString r.category = lowerString category) ∧
    ∀ q ∈ ["cheap", "CHEAP", "Cheap"],
      Database.list_by_category ⟨[⟨"Place", "Cheap"⟩], []⟩ q = [⟨"Place", "Cheap"⟩] := by
  constructor
  · intro s category
    constructor
    · exact List.filter_sublist _
    · intro r
      simp [Database.list_by_category, List.mem_filter]
  · decide

/-- C9: `list_all` returns a permutation of the stored table, sorted by
restaurant name ascending (so it is empty exactly on the empty table), and the
insertion order "Zebra", "Apple", "Mango" comes back as
["Apple", "Mango", "Zebra"]. -/
theorem list_all_sorted_by_name :
    (∀ s : DBState,
      List.Perm (Database.list_all s) s.lunch_list ∧
      (Database.list_all s).Pairwise (fun a b => a.name ≤ b.name)) ∧
    (Database.list_all
        ⟨[⟨"Zebra", "cheap"⟩, ⟨"Apple", "normal"⟩, ⟨"Mango", "cheap"⟩], []⟩).map
      Restaurant.name = ["Apple", "Mango", "Zebra"] := by
  constructor
  · intro s
    constructor
    · exact List.perm_insertionSort nameLe s.lunch_list
    · exact (List.sorted_insertionSort nameLe s.lunch_list).imp
        (fun h => (nameLe_iff _ _).mp h)
  · decide

section DateOrder

namespace Database

/-- The head of the date-descending sort carries a maximal date. -/
theorem byDateDesc_head_max {recent : List (String × Nat)} {p : String × Nat}
    (hp : p ∈ recent) :
    ∃ m, (byDateDesc recent).head? = some m ∧ m ∈ recent ∧
      ∀ q ∈ recent, q.2 ≤ m.2 := by
  have hperm : List.Perm (byDateDesc recent) recent :=
    List.perm_insertionSort dateGe recent
  have hsorted : List.Sorted dateGe (byDateDesc recent) :=
    List.sorted_insertionSort dateGe recent
  cases hbd : byDateDesc recent with
  | nil =>
    have : recent = [] := ((hbd ▸ hperm).symm).eq_nil
    exact absurd (this ▸ hp) (List.not_mem_nil p)
  | cons m t =>
    refine ⟨m, rfl, ?_, ?_⟩
    · exact hperm.subset (hbd ▸ List.mem_cons_self m t)
    · intro q hq
      have hqmem : q ∈ m :: t := hbd ▸ hperm.mem_iff.mpr hq
      rcases List.mem_cons.mp hqmem with hqm | hqt
      · exact le_of_eq (congrArg Prod.snd hqm)
      · have := (List.sorted_cons.mp (hbd ▸ hsorted)).1 q hqt
        exact this

/-- If a row strictly dominates every other date, it heads the
date-descending sort. -/
theorem byDateDesc_head_of_strict_max {recent : List (String × Nat)}
    {m : String × Nat} (hm : m ∈ recent)
    (hmax : ∀ q ∈ recent, q ≠ m → q.2 < m.2) :
    (byDateDesc recent).head? = some m := by
  obtain ⟨m', hhead, hmem, hub⟩ := byDateDesc_head_max hm
  by_cases heq : m' = m
  · exact heq ▸ hhead
  · exact absurd (hub m hm) (not_le.mpr (hmax m' hmem heq))

/-- `ORDER BY date DESC LIMIT 1` returns the strictly most recent row. -/
theorem lastPick_of_strict_max {recent : List (String × Nat)}
    {m : String × Nat} (hm : m ∈ recent)
    (hmax : ∀ q ∈ recent, q ≠ m → q.2 < m.2) :
    lastPick recent = some m.1 := by
  unfold lastPick
  rw [byDateDesc_head_of_strict_max hm hmax]
  rfl

/-- The strictly most recent row is among the subquery's 14 names, hence it
survives pruning. -/
theorem strict_max_mem_pruneRecent {recent : List (String × Nat)}
    {m : String × Nat} (hm : m ∈ recent)
    (hmax : ∀ q ∈ recent, q ≠ m → q.2 < m.2) :
    m ∈ pruneRecent recent := by
  have hhead := byDateDesc_head_of_strict_max hm hmax
  obtain ⟨t, ht⟩ : ∃ t, byDateDesc recent = m :: t := by
    cases hbd : byDateDesc recent with
    | nil => rw [hbd] at hhead; exact absurd hhead (by simp)
    | cons x t =>
      rw [hbd] at hhead
      exact ⟨t, by rw [List.head?_cons] at hhead; rw [Option.some_inj.mp hhead]⟩
  have hname : m.1 ∈ top14Names recent := by
    unfold top14Names
    rw [ht]
    exact List.mem_map_of_mem Prod.fst (by simp [List.take_cons])
  refine List.mem_filter.mpr ⟨hm, ?_⟩
  simpa [List.elem_iff] using hname

/-- After an upsert with a date later than everything in the history, that
fresh row strictly dominates the upserted table. -/
theorem upsert_strict_max {recent : List (String × Nat)} {name : String} {now : Nat}
    (hlt : ∀ p ∈ recent, p.2 < now) :
    (name, now) ∈ upsertRecent recent name now ∧
    ∀ q ∈ upsertRecent recent name now, q ≠ (name, now) → q.2 < now := by
  constructor
  · exact mem_upsertRecent.mpr (Or.inr rfl)
  · intro q hq hne
    rcases mem_upsertRecent.mp hq with ⟨hqr, _⟩ | hq'
    · exact hlt q hqr
    · exact absurd hq' hne

/-- After `roll`'s write phase on a history whose dates all precede `now`, the
most recent pick is the freshly chosen name. -/
theorem lastPick_after_upsert_prune {recent : List (String × Nat)} {name : String}
    {now : Nat} (hlt : ∀ p ∈ recent, p.2 < now) :
    lastPick (pruneRecent (upsertRecent recent name now)) = some name := by
  obtain ⟨hmem, hmax⟩ := @upsert_strict_max recent name now hlt
  have hmem' : (name, now) ∈ pruneRecent (upsertRecent recent name now) :=
    strict_max_mem_pruneRecent hmem hmax
  have hmax' : ∀ q ∈ pruneRecent (upsertRecent recent name now),
      q ≠ (name, now) → q.2 < now :=
    fun q hq => hmax q ((List.filter_sublist _).subset hq)
  exact lastPick_of_strict_max hmem' hmax'

end Database

end DateOrder

/-- C1: on a non-empty category, `roll` succeeds with a restaurant of that
category; whenever some candidate differs from the globally most recent pick
(i.e. the exclusion leaves the pool non-empty) the chosen restaurant avoids
that pick, and a category with exactly one restaurant always returns it. -/
theorem roll_candidate_pool (s : DBState) (category : String) (pick now : Nat)
    (h : Database.list_by_category s category ≠ []) :
    ∃ r s', Database.roll s category pick now = (s', .ok r) ∧
      r ∈ Database.list_by_category s category ∧
      ((∃ x ∈ Database.list_by_category s category,
          some x.name ≠ Database.lastPick s.recent_lunch) →
        some r.name ≠ Database.lastPick s.recent_lunch) ∧
      ∀ r0, Database.list_by_category s category = [r0] → r = r0 := by
  have hpoolne := Database.rollPool_ne_nil h
  set chosen :=
    (Database.rollPool s category).getD
      (pick % (Database.rollPool s category).length) ⟨"", ""⟩ with hchosen
  have hmem : chosen ∈ Database.rollPool s category :=
    Database.getD_mod_mem hpoolne pick ⟨"", ""⟩
  have hmemcat : chosen ∈ Database.list_by_category s category :=
    Database.rollPool_subset s category hmem
  refine ⟨chosen, _, Database.roll_cons_eq s category pick now h, hmemcat, ?_, ?_⟩
  · rintro ⟨x, hx, hxne⟩
    have havail : (Database.list_by_category s category).filter
        (fun r => some r.name != Database.lastPick s.recent_lunch) ≠ [] := by
      intro hnil
      have : x ∈ (Database.list_by_category s category).filter
          (fun r => some r.name != Database.lastPick s.recent_lunch) :=
        List.mem_filter.mpr ⟨hx, by simpa using hxne⟩
      rw [hnil] at this
      exact absurd this (List.not_mem_nil x)
    exact Database.rollPool_avoids_last havail chosen hmem
  · intro r0 hr0
    rw [hr0] at hmemcat
    exact List.mem_singleton.mp hmemcat

/-- Witness for `roll_candidate_pool` on a one-restaurant category whose only
entry was also the last pick: it is returned again. -/
theorem roll_candidate_pool_witness :
    ∃ r s', Database.roll ⟨[⟨"Solo", "cheap"⟩], [("Solo", 3)]⟩ "cheap" 7 4 = (s', .ok r) ∧
      r ∈ Database.list_by_category ⟨[⟨"Solo", "cheap"⟩], [("Solo", 3)]⟩ "cheap" ∧
      ((∃ x ∈ Database.list_by_category ⟨[⟨"Solo", "cheap"⟩], [("Solo", 3)]⟩ "cheap",
          some x.name ≠ Database.lastPick [("Solo", 3)]) →
        some r.name ≠ Database.lastPick [("Solo", 3)]) ∧
      ∀ r0, Database.list_by_category ⟨[⟨"Solo", "cheap"⟩], [("Solo", 3)]⟩ "cheap" = [r0] →
        r = r0 :=
  roll_candidate_pool ⟨[⟨"Solo", "cheap"⟩], [("Solo", 3)]⟩ "cheap" 7 4 (by decide)

/-- C2: in a category holding exactly the two distinctly-named restaurants `A`
and `B`, two successive `roll` calls (the first with a timestamp newer than the
whole history, as the wall clock guarantees) never repeat a name, whatever the
random outcomes `p1`, `p2`. -/
theorem roll_two_no_repeat (s : DBState) (category : String) (A B : Restaurant)
    (p1 n1 p2 n2 : Nat) (r1 r2 : Restaurant) (s1 s2 : DBState)
    (hAB : Database.list_by_category s category = [A, B])
    (hname : A.name ≠ B.name)
    (hdates : ∀ p ∈ s.recent_lunch, p.2 < n1)
    (h1 : Database.roll s category p1 n1 = (s1, .ok r1))
    (h2 : Database.roll s1 category p2 n2 = (s2, .ok r2)) :
    r2.name ≠ r1.name := by
  have hne : Database.list_by_category s category ≠ [] := by simp [hAB]
  have he1 := Database.roll_cons_eq s category p1 n1 hne
  rw [h1] at he1
  rw [Prod.mk.injEq] at he1
  obtain ⟨hs1, hok1⟩ := he1
  have hr1 : r1 = (Database.rollPool s category).getD
      (p1 % (Database.rollPool s category).length) ⟨"", ""⟩ := Except.ok.inj hok1
  rw [← hr1] at hs1
  have hr1mem : r1 ∈ Database.list_by_category s category :=
    Database.rollPool_subset s category
      (hr1 ▸ Database.getD_mod_mem (Database.rollPool_ne_nil hne) p1 ⟨"", ""⟩)
  rw [hAB] at hr1mem
  have hlast : Database.lastPick s1.recent_lunch = some r1.name := by
    rw [hs1]
    exact Database.lastPick_after_upsert_prune hdates
  have hcat1 : Database.list_by_category s1 category = [A, B] := by
    rw [hs1]
    exact hAB
  have hne1 : Database.list_by_category s1 category ≠ [] := by simp [hcat1]
  have havail2 : (Database.list_by_category s1 category).filter
      (fun r => some r.name != Database.lastPick s1.recent_lunch) ≠ [] := by
    rw [hcat1, hlast]
    rcases List.mem_cons.mp hr1mem with hA | hB
    · refine List.ne_nil_of_mem (a := B) (List.mem_filter.mpr ⟨by simp, ?_⟩)
      simp [hA]
      exact Ne.symm hname
    · have hB' : r1 = B := List.mem_singleton.mp hB
      refine List.ne_nil_of_mem (a := A) (List.mem_filter.mpr ⟨by simp, ?_⟩)
      simp [hB']
      exact hname
  have he2 := Database.roll_cons_eq s1 category p2 n2 hne1
  rw [h2] at he2
  rw [Prod.mk.injEq] at he2
  obtain ⟨_, hok2⟩ := he2
  have hr2 : r2 = (Database.rollPool s1 category).getD
      (p2 % (Database.rollPool s1 category).length) ⟨"", ""⟩ := Except.ok.inj hok2
  have hr2pool : r2 ∈ Database.rollPool s1 category :=
    hr2 ▸ Database.getD_mod_mem (Database.rollPool_ne_nil hne1) p2 ⟨"", ""⟩
  have havoid := Database.rollPool_avoids_last havail2 r2 hr2pool
  rw [hlast] at havoid
  intro hc
  exact havoid (by rw [hc])

/-- Witness for `roll_two_no_repeat`: a concrete two-roll run on a fresh
two-restaurant database picks "A" then "B". -/
theorem roll_two_no_repeat_witness :
    (Restaurant.mk "B" "cheap").name ≠ (Restaurant.mk "A" "cheap").name :=
  roll_two_no_repeat ⟨[⟨"A", "cheap"⟩, ⟨"B", "cheap"⟩], []⟩ "cheap"
    ⟨"A", "cheap"⟩ ⟨"B", "cheap"⟩ 0 5 0 6
    ⟨"A", "cheap"⟩ ⟨"B", "cheap"⟩
    ⟨[⟨"A", "cheap"⟩, ⟨"B", "cheap"⟩], [("A", 5)]⟩
    ⟨[⟨"A", "cheap"⟩, ⟨"B", "cheap"⟩], [("A", 5), ("B", 6)]⟩
    (by decide) (by decide) (by decide) rfl rfl

section Cap

namespace Database

/-- Upserting preserves the primary-key invariant of `recent_lunch`. -/
theorem upsertRecent_names_nodup {recent : List (String × Nat)} {name : String}
    {now : Nat} (h : (recent.map Prod.fst).Nodup) :
    ((upsertRecent recent name now).map Prod.fst).Nodup := by
  unfold upsertRecent
  rw [List.map_append, List.nodup_append]
  refine ⟨h.sublist ((List.filter_sublist recent).map Prod.fst), by simp, ?_⟩
  intro a ha hb
  obtain ⟨p, hp, hpa⟩ := List.mem_map.mp ha
  have hpn : p.1 ≠ name := by simpa using (List.mem_filter.mp hp).2
  have hbn : a = name := by simpa using hb
  rw [← hpa] at hbn
  exact hpn hbn

/-- Pruning preserves the primary-key invariant of `recent_lunch`. -/
theorem pruneRecent_names_nodup {recent : List (String × Nat)}
    (h : (recent.map Prod.fst).Nodup) :
    ((pruneRecent recent).map Prod.fst).Nodup :=
  h.sublist ((List.filter_sublist recent).map Prod.fst)

/-- A history with pairwise distinct names has at most 14 rows after pruning:
each kept row owes its survival to one of the (at most 14) subquery names. -/
theorem pruneRecent_length_le {recent : List (String × Nat)}
    (h : (recent.map Prod.fst).Nodup) :
    (pruneRecent recent).length ≤ 14 := by
  have hnd : ((pruneRecent recent).map Prod.fst).Nodup := pruneRecent_names_nodup h
  have hsub : (pruneRecent recent).map Prod.fst ⊆ top14Names recent := by
    intro a ha
    obtain ⟨p, hp, hpa⟩ := List.mem_map.mp ha
    have := (List.mem_filter.mp hp).2
    rw [← hpa]
    simpa [List.elem_iff] using this
  have hlen : ((pruneRecent recent).map Prod.fst).length ≤ (top14Names recent).length :=
    (List.subperm_of_subset hnd hsub).length_le
  have htop : (top14Names recent).length ≤ 14 := by
    unfold top14Names
    rw [List.length_map]
    exact List.length_take_le 14 _
  calc (pruneRecent recent).length
      = ((pruneRecent recent).map Prod.fst).length := (List.length_map _ _).symm
    _ ≤ (top14Names recent).length := hlen
    _ ≤ 14 := htop

/-- Every row `pruneRecent` drops is no newer than every row it keeps: the
kept rows are the most recently timestamped ones. -/
theorem pruneRecent_keeps_latest {recent : List (String × Nat)}
    (hnd : (recent.map Prod.fst).Nodup)
    {p : String × Nat} (hp : p ∈ recent) (hpk : p ∉ pruneRecent recent)
    {q : String × Nat} (hq : q ∈ pruneRecent recent) : p.2 ≤ q.2 := by
  have hperm : List.Perm (byDateDesc recent) recent :=
    List.perm_insertionSort dateGe recent
  have hsorted : List.Sorted dateGe (byDateDesc recent) :=
    List.sorted_insertionSort dateGe recent
  have hsplit : (byDateDesc recent).take 14 ++ (byDateDesc recent).drop 14
      = byDateDesc recent := List.take_append_drop 14 _
  have hpair : ∀ a ∈ (byDateDesc recent).take 14,
      ∀ b ∈ (byDateDesc recent).drop 14, dateGe a b := by
    have h' := hsorted
    rw [← hsplit] at h'
    exact fun a ha b hb => (List.pairwise_append.mp h').2.2 a ha b hb
  have hpsrt : p ∈ byDateDesc recent := hperm.mem_iff.mpr hp
  have hpnott : p ∉ (byDateDesc recent).take 14 := by
    intro hmem
    apply hpk
    refine List.mem_filter.mpr ⟨hp, ?_⟩
    have : p.1 ∈ top14Names recent := List.mem_map_of_mem Prod.fst hmem
    simpa [List.elem_iff] using this
  have hpdrop : p ∈ (byDateDesc recent).drop 14 := by
    have h' := hpsrt
    rw [← hsplit] at h'
    rcases List.mem_append.mp h' with h'' | h''
    · exact absurd h'' hpnott
    · exact h''
  have hqrec : q ∈ recent := (List.filter_sublist recent).subset hq
  have hqname : q.1 ∈ top14Names recent := by
    have := (List.mem_filter.mp hq).2
    simpa [List.elem_iff] using this
  obtain ⟨q', hq't, hq'1⟩ := List.mem_map.mp hqname
  have hq'rec : q' ∈ recent := hperm.mem_iff.mp (List.take_subset 14 _ hq't)
  have hq'q : q' = q := List.inj_on_of_nodup_map hnd hq'rec hqrec hq'1
  have := hpair q' hq't p hpdrop
  rw [hq'q] at this
  exact this

end Database

end Cap

/-- C3: for any prior state satisfying the `recent_lunch` primary-key
invariant, a completed `roll` leaves at most 14 history rows, all drawn from
the upserted history, and every dropped row is no newer than every kept row —
the kept rows are the most recently timestamped picks. -/
theorem roll_history_capped (s : DBState) (category : String) (pick now : Nat)
    (r : Restaurant) (s' : DBState)
    (hnd : (s.recent_lunch.map Prod.fst).Nodup)
    (h : Database.roll s category pick now = (s', .ok r)) :
    s'.recent_lunch.length ≤ 14 ∧
    List.Sublist s'.recent_lunch (Database.upsertRecent s.recent_lunch r.name now) ∧
    ∀ p ∈ Database.upsertRecent s.recent_lunch r.name now,
      p ∉ s'.recent_lunch → ∀ q ∈ s'.recent_lunch, p.2 ≤ q.2 := by
  have hne : Database.list_by_category s category ≠ [] := by
    intro hnil
    rw [Database.roll_nil_eq s category pick now hnil, Prod.mk.injEq] at h
    exact Except.noConfusion h.2
  have he := Database.roll_cons_eq s category pick now hne
  rw [h, Prod.mk.injEq] at he
  obtain ⟨hs', hok⟩ := he
  have hr : r = (Database.rollPool s category).getD
      (pick % (Database.rollPool s category).length) ⟨"", ""⟩ := Except.ok.inj hok
  rw [← hr] at hs'
  have hmid : ((Database.upsertRecent s.recent_lunch r.name now).map Prod.fst).Nodup :=
    Database.upsertRecent_names_nodup hnd
  refine ⟨?_, ?_, ?_⟩
  · rw [hs']
    exact Database.pruneRecent_length_le hmid
  · rw [hs']
    exact List.filter_sublist _
  · intro p hp hpk q hq
    rw [hs'] at hpk hq
    exact Database.pruneRecent_keeps_latest hmid hp hpk hq

/-- Witness for `roll_history_capped` on a concrete roll over a one-entry
history. -/
theorem roll_history_capped_witness :
    (DBState.mk [⟨"A", "cheap"⟩] [("X", 1), ("A", 2)]).recent_lunch.length ≤ 14 ∧
    List.Sublist (DBState.mk [⟨"A", "cheap"⟩] [("X", 1), ("A", 2)]).recent_lunch
      (Database.upsertRecent [("X", 1)] (Restaurant.mk "A" "cheap").name 2) ∧
    ∀ p ∈ Database.upsertRecent [("X", 1)] (Restaurant.mk "A" "cheap").name 2,
      p ∉ (DBState.mk [⟨"A", "cheap"⟩] [("X", 1), ("A", 2)]).recent_lunch →
      ∀ q ∈ (DBState.mk [⟨"A", "cheap"⟩] [("X", 1), ("A", 2)]).recent_lunch, p.2 ≤ q.2 :=
  roll_history_capped ⟨[⟨"A", "cheap"⟩], [("X", 1)]⟩ "cheap" 0 2
    ⟨"A", "cheap"⟩ ⟨[⟨"A", "cheap"⟩], [("X", 1), ("A", 2)]⟩ (by decide) rfl

/-- C8: a completed `roll` keeps `recent_lunch` free of duplicate names; any
surviving row for the chosen name carries the fresh timestamp, and when the
clock is ahead of the whole history (as in reality) the chosen row is indeed
present — so re-picking a restaurant refreshes its timestamp instead of adding
a second row. -/
theorem roll_upsert_replaces (s : DBState) (category : String) (pick now : Nat)
    (r : Restaurant) (s' : DBState)
    (hnd : (s.recent_lunch.map Prod.fst).Nodup)
    (h : Database.roll s category pick now = (s', .ok r)) :
    (s'.recent_lunch.map Prod.fst).Nodup ∧
    (∀ d, (r.name, d) ∈ s'.recent_lunch → d = now) ∧
    ((∀ p ∈ s.recent_lunch, p.2 < now) → (r.name, now) ∈ s'.recent_lunch) := by
  have hne : Database.list_by_category s category ≠ [] := by
    intro hnil
    rw [Database.roll_nil_eq s category pick now hnil, Prod.mk.injEq] at h
    exact Except.noConfusion h.2
  have he := Database.roll_cons_eq s category pick now hne
  rw [h, Prod.mk.injEq] at he
  obtain ⟨hs', hok⟩ := he
  have hr : r = (Database.rollPool s category).getD
      (pick % (Database.rollPool s category).length) ⟨"", ""⟩ := Except.ok.inj hok
  rw [← hr] at hs'
  refine ⟨?_, ?_, ?_⟩
  · rw [hs']
    exact Database.pruneRecent_names_nodup (Database.upsertRecent_names_nodup hnd)
  · intro d hd
    rw [hs'] at hd
    have hmid := (List.filter_sublist _).subset hd
    rcases Database.mem_upsertRecent.mp hmid with ⟨_, hne'⟩ | heq
    · exact absurd rfl hne'
    · exact congrArg Prod.snd heq
  · intro hlt
    obtain ⟨hmem, hmax⟩ := @Database.upsert_strict_max s.recent_lunch r.name now hlt
    rw [hs']
    exact Database.strict_max_mem_pruneRecent hmem hmax

/-- Witness for `roll_upsert_replaces`: re-rolling the only restaurant "A"
replaces its history row's timestamp. -/
theorem roll_upsert_replaces_witness :
    ((DBState.mk [⟨"A", "cheap"⟩] [("A", 2)]).recent_lunch.map Prod.fst).Nodup ∧
    (∀ d, ((Restaurant.mk "A" "cheap").name, d) ∈
        (DBState.mk [⟨"A", "cheap"⟩] [("A", 2)]).recent_lunch → d = 2) ∧
    ((∀ p ∈ [(("A" : String), 1)], p.2 < 2) →
      ((Restaurant.mk "A" "cheap").name, 2) ∈
        (DBState.mk [⟨"A", "cheap"⟩] [("A", 2)]).recent_lunch) :=
  roll_upsert_replaces ⟨[⟨"A", "cheap"⟩], [("A", 1)]⟩ "cheap" 4 2
    ⟨"A", "cheap"⟩ ⟨[⟨"A", "cheap"⟩], [("A", 2)]⟩ (by decide) rfl

/-- Witness for `list_by_category_case_insensitive`: the upper-case query
"CHEAP" finds the row stored with category "Cheap". -/
theorem list_by_category_case_insensitive_witness :
    Database.list_by_category ⟨[⟨"Place", "Cheap"⟩], []⟩ "CHEAP" = [⟨"Place", "Cheap"⟩] :=
  list_by_category_case_insensitive.2 "CHEAP" (by decide)
